import Mathlib

/-!
Shallow embedding of the buffer cache (`src/bio.c`) and the per-CPU page
allocator (`src/kalloc.c`) of the repository, together with proofs of the
specification claims.

Conventions of the embedding:
* Machine integers are modelled as `Nat`/`Int`.  `blockno`, `dev` and ticks
  are natural numbers; `refcnt` and `lu_time` are modelled as mathematical
  integers (`buf.h` and `param.h` are not part of the sources; the spec's
  "Open question" note says `lu_time` is compared as a signed quantity, and
  the reference-count claims speak of the count going negative).
* The code is sequential at operation granularity: spin-locks guard critical
  sections that are atomic here, and a sleep-lock is a `lockHeld` flag.
* The unbounded `while (lru == 0)` retry loop of `bget` is given explicit
  fuel; running out of fuel yields the `diverge` result, distinct from a
  `panicked` result and from normal return.
* Disk I/O (`virtio_disk_rw`) is logged in `iolog`, newest event first; an
  event is `(dev, blockno, isWrite)`.
* `NBUCKET = 13` is fixed by `bio.c`; `NBUF` and `NCPU` come from the
  missing `param.h` and are kept as parameters `n` and `ncpu`.
-/

/-- One cache buffer: the fields of `struct buf` used by `bio.c`.
`data` abstracts the `BSIZE` byte payload as a single value.
Modelled from the spec: `buf.h` is not under `src/`; the field list follows
the spec's Buffer `{device, block_no, valid, refcount, last_used_tick, data}`
plus the sleep-lock, with `refcount` and `last_used_tick` as integers. -/
structure Buf where
  dev : Nat
  blockno : Nat
  valid : Bool
  refcnt : Int
  lu_time : Int
  data : Nat
  lockHeld : Bool
deriving DecidableEq

/-- The buffer-cache state: the pool `bcache.buf` of `n` (= NBUF) buffers,
the 13 bucket lists (each bucket's doubly-linked list, head first, is a list
of pool indices), the external tick counter, the disk contents and the I/O
log. -/
structure BCache (n : Nat) where
  bufs : Fin n → Buf
  buckets : Fin 13 → List (Fin n)
  ticks : Nat
  disk : Nat → Nat → Nat
  iolog : List (Nat × Nat × Bool)

/-- `blockno % NBUCKET`, the home bucket of a block (`bio.c` line 84). -/
def bhash (blockno : Nat) : Fin 13 := ⟨blockno % 13, by omega⟩

/-- The bucket-scan test `b->dev == dev && b->blockno == blockno`
(`bio.c` lines 90 and 108). -/
def bmatch (dev blockno : Nat) (b : Buf) : Bool :=
  b.dev == dev && b.blockno == blockno

/-- `binit` (`bio.c` lines 45-72): every bucket list starts empty, then every
pool buffer is pushed at the head of bucket 0 and gets `lu_time = -1`.  The
remaining fields are the zero-initialised C globals.  Pushing indices
`0, 1, ..., n-1` at the head leaves bucket 0 holding them in reverse order. -/
def binit (n : Nat) (disk0 : Nat → Nat → Nat) : BCache n :=
  { bufs := fun _ =>
      { dev := 0, blockno := 0, valid := false, refcnt := 0,
        lu_time := -1, data := 0, lockHeld := false }
    buckets := fun k => if k = (0 : Fin 13) then (List.finRange n).reverse else []
    ticks := 0
    disk := disk0
    iolog := [] }

/-- One step of the pool scan of `bio.c` lines 125-134:
`if(b->refcnt == 0 && (lru == 0 || b->lu_time < lru->lu_time)) lru = b;`. -/
def scanStep {n : Nat} (bufs : Fin n → Buf) (lru : Option (Fin n)) (i : Fin n) :
    Option (Fin n) :=
  if (bufs i).refcnt = 0 then
    match lru with
    | none => some i
    | some j => if (bufs i).lu_time < (bufs j).lu_time then some i else some j
  else lru

/-- The full pool scan `for(b = bcache.buf; b < bcache.buf + NBUF; b++)`
selecting the refcnt-0 buffer of minimal `lu_time` (first wins on ties). -/
def scanVictim {n : Nat} (bufs : Fin n → Buf) : Option (Fin n) :=
  (List.finRange n).foldl (scanStep bufs) none

/-- The state update of a cache hit (`bio.c` lines 89-96 and 107-114):
`b->refcnt++` under the bucket lock, then `acquiresleep(&b->lock)`. -/
def hitUpdate {n : Nat} (s : BCache n) (i : Fin n) : BCache n :=
  let b := s.bufs i
  { s with bufs := Function.update s.bufs i ({ b with refcnt := b.refcnt + 1, lockHeld := true }) }

/-- The state update of a successful eviction (`bio.c` lines 151-169): unlink
the victim `v` from its list (`lru->next->prev = lru->prev; lru->prev->next =
lru->next;` — modelled as erasing `v` from every bucket list, which is what
the pointer surgery does to the one list holding `v`), overwrite `dev`,
`blockno`, set `valid = 0`, `refcnt = 1`, link `v` at the head of bucket
`blockno % NBUCKET`, and `acquiresleep`. -/
def evictState {n : Nat} (dev blockno : Nat) (v : Fin n) (s : BCache n) : BCache n :=
  let bks : Fin 13 → List (Fin n) := fun k => (s.buckets k).erase v
  let b := s.bufs v
  let b' : Buf :=
    { b with dev := dev, blockno := blockno, valid := false, refcnt := 1, lockHeld := true }
  { s with
    bufs := Function.update s.bufs v b'
    buckets := Function.update bks (bhash blockno) (v :: (s.buckets (bhash blockno)).erase v) }

/-- Results of `bget`/`bread`: normal return of a locked buffer and the new
state, a kernel panic with its message, or divergence (the fuel bound of an
unbounded retry loop was reached). -/
inductive BRes (n : Nat) where
  | ok : Fin n → BCache n → BRes n
  | panicked : String → BRes n
  | diverge : BRes n
deriving Nonempty

/-- The `while(lru == 0) { ... }` loop of `bio.c` lines 121-173 followed by
`panic("bget: no buffers")` at line 176.  The loop is entered with
`lru = none` (`struct buf *lru = 0`); an iteration re-scans the whole pool,
re-verifies `lru->refcnt == 0` and either returns the rebound victim or
clears `lru` and retries.  The loop condition can only see `lru ≠ none` if an
iteration ends with a victim in hand, which never happens — the `panicked`
branch models the dead `panic` after the loop. -/
def bgetWhile {n : Nat} (dev blockno : Nat) (s : BCache n) :
    Option (Fin n) → Nat → BRes n
  | _, 0 => .diverge
  | some _, _ + 1 => .panicked "bget: no buffers"
  | none, fuel + 1 =>
    match scanVictim s.bufs with
    | none => bgetWhile dev blockno s none fuel
    | some lru =>
      if (s.bufs lru).refcnt ≠ 0 then
        bgetWhile dev blockno s none fuel
      else
        .ok lru (evictState dev blockno lru s)

/-- `bget` (`bio.c` lines 77-177): scan bucket `blockno % NBUCKET` for the
block; on a miss take the global lock, re-scan the same bucket, and on a
second miss run the eviction loop.  In this sequential embedding the re-scan
inspects the unchanged state. -/
def bget {n : Nat} (dev blockno : Nat) (s : BCache n) (fuel : Nat) : BRes n :=
  match (s.buckets (bhash blockno)).find? (fun i => bmatch dev blockno (s.bufs i)) with
  | some i => .ok i (hitUpdate s i)
  | none =>
    match (s.buckets (bhash blockno)).find? (fun i => bmatch dev blockno (s.bufs i)) with
    | some i => .ok i (hitUpdate s i)
    | none => bgetWhile dev blockno s none fuel

/-- `virtio_disk_rw(b, write)`: a write copies `b->data` to disk, a read
copies the disk block into `b->data`; both are appended to the I/O log. -/
def virtio_disk_rw {n : Nat} (s : BCache n) (i : Fin n) (write : Bool) : BCache n :=
  let b := s.bufs i
  if write then
    { s with
      disk := fun d bn => if d = b.dev ∧ bn = b.blockno then b.data else s.disk d bn
      iolog := (b.dev, b.blockno, true) :: s.iolog }
  else
    { s with
      bufs := Function.update s.bufs i ({ b with data := s.disk b.dev b.blockno })
      iolog := (b.dev, b.blockno, false) :: s.iolog }

/-- The invalid-buffer arm of `bread` (`bio.c` lines 186-189):
`virtio_disk_rw(b, 0); b->valid = 1;`. -/
def readFill {n : Nat} (s₁ : BCache n) (i : Fin n) : BCache n :=
  let s₂ := virtio_disk_rw s₁ i false
  { s₂ with bufs := Function.update s₂.bufs i ({ s₂.bufs i with valid := true }) }

/-- `bread` (`bio.c` lines 180-191): `bget`, then if the buffer is not valid
issue one synchronous disk read and set `valid = 1`. -/
def bread {n : Nat} (dev blockno : Nat) (s : BCache n) (fuel : Nat) : BRes n :=
  match bget dev blockno s fuel with
  | .ok i s₁ =>
    if (s₁.bufs i).valid then .ok i s₁
    else .ok i (readFill s₁ i)
  | r => r

/-- `bwrite` (`bio.c` lines 194-200): panic (`none`) unless the caller holds
the sleep-lock, else one synchronous disk write. -/
def bwrite {n : Nat} (i : Fin n) (s : BCache n) : Option (BCache n) :=
  if (s.bufs i).lockHeld then some (virtio_disk_rw s i true) else none

/-- `brelse` (`bio.c` lines 204-219): panic (`none`) unless the caller holds
the sleep-lock; else release it, decrement `refcnt` and stamp
`lu_time = ticks` under the bucket lock. -/
def brelse {n : Nat} (i : Fin n) (s : BCache n) : Option (BCache n) :=
  if (s.bufs i).lockHeld then
    let b := s.bufs i
    let b' : Buf := { b with lockHeld := false, refcnt := b.refcnt - 1, lu_time := (s.ticks : Int) }
    some { s with bufs := Function.update s.bufs i b' }
  else none

/-- `bpin` (`bio.c` lines 221-226): `b->refcnt++` under the bucket lock. -/
def bpin {n : Nat} (i : Fin n) (s : BCache n) : BCache n :=
  let b := s.bufs i
  { s with bufs := Function.update s.bufs i ({ b with refcnt := b.refcnt + 1 }) }

/-- `bunpin` (`bio.c` lines 228-233): `b->refcnt--` under the bucket lock,
with no check of any kind. -/
def bunpin {n : Nat} (i : Fin n) (s : BCache n) : BCache n :=
  let b := s.bufs i
  { s with bufs := Function.update s.bufs i ({ b with refcnt := b.refcnt - 1 }) }

/-- A public operation of the buffer cache (plus a clock tick of the external
`ticks` counter).  `bread` carries the fuel bound of its eviction loop. -/
inductive CacheOp (n : Nat) where
  | opBread (dev blockno fuel : Nat)
  | opBwrite (i : Fin n)
  | opBrelse (i : Fin n)
  | opBpin (i : Fin n)
  | opBunpin (i : Fin n)
  | opTick

/-- Executing one operation.  `none` means the operation did not complete
normally (a panic, or a diverging `bget`). -/
def stepOp {n : Nat} : CacheOp n → BCache n → Option (BCache n)
  | .opBread d b fuel, s =>
    match bread d b s fuel with
    | .ok _ s' => some s'
    | _ => none
  | .opBwrite i, s => bwrite i s
  | .opBrelse i, s => brelse i s
  | .opBpin i, s => some (bpin i s)
  | .opBunpin i, s => some (bunpin i s)
  | .opTick, s => some { s with ticks := s.ticks + 1 }

/-- The API contract of `bpin`/`bunpin` (spec 4.2: they adjust the refcount
of a buffer that is currently referenced — `InUse → InUse (additional pin)`):
they are only called on a buffer with `refcnt ≥ 1`.  Every other operation
may be attempted on anything; `brelse`/`bwrite` enforce their own sleep-lock
precondition by panicking. -/
def legalPre {n : Nat} : CacheOp n → BCache n → Prop
  | .opBpin i, s => 1 ≤ (s.bufs i).refcnt
  | .opBunpin i, s => 1 ≤ (s.bufs i).refcnt
  | _, _ => True

/-- States reachable from `binit` by completed public operations respecting
the `bpin`/`bunpin` usage contract. -/
inductive LegalReach (n : Nat) (disk0 : Nat → Nat → Nat) : BCache n → Prop
  | init : LegalReach n disk0 (binit n disk0)
  | step {s s' : BCache n} (op : CacheOp n) :
      LegalReach n disk0 s → legalPre op s → stepOp op s = some s' →
      LegalReach n disk0 s'

/-- A buffer currently holding a cached block: it is referenced
(`refcnt > 0`) or holds valid data. -/
def Cached (b : Buf) : Prop := 0 < b.refcnt ∨ b.valid = true

/-- The structural invariant of the cache (spec section 3.2). `home`/`uniq`:
every buffer is linked in exactly bucket `blockno % NBUCKET`; `nodup`: bucket
lists hold each buffer at most once; `firstm`: a buffer holding a cached
block is the first match for its `(dev, blockno)` in its bucket — hence at
most one cached buffer per block; `lub`: `lu_time` is `-1` or a tick. -/
structure CacheInv {n : Nat} (s : BCache n) : Prop where
  home : ∀ i : Fin n, i ∈ s.buckets (bhash (s.bufs i).blockno)
  uniq : ∀ (k : Fin 13) (i : Fin n), i ∈ s.buckets k → k = bhash (s.bufs i).blockno
  nodup : ∀ k : Fin 13, (s.buckets k).Nodup
  firstm : ∀ i : Fin n, Cached (s.bufs i) →
    (s.buckets (bhash (s.bufs i).blockno)).find?
      (fun j => bmatch (s.bufs i).dev (s.bufs i).blockno (s.bufs j)) = some i
  lub : ∀ i : Fin n, -1 ≤ (s.bufs i).lu_time

/-! ## The page allocator (`src/kalloc.c`) -/

/-- `PGSIZE` from the RISC-V headers: 4096-byte pages. -/
def PGSIZE : Nat := 4096

/-- The allocator state: one free list per CPU (`struct kmem[NCPU]`), each an
intrusive list of page addresses, head first. -/
structure KMem (ncpu : Nat) where
  freelist : Fin ncpu → List Nat

/-- Shard `(id + i) % NCPU`, the `i`-th probe target of the steal loop. -/
def probe {ncpu : Nat} (id : Fin ncpu) (i : Nat) : Fin ncpu :=
  ⟨(id.val + i) % ncpu, Nat.mod_lt _ id.pos⟩

/-- `kfree(pa)` (`kalloc.c` lines 58-80): panic (`none`) if `pa` is not
page-aligned, below the kernel end `kend`, or at/above `PHYSTOP`; otherwise
push the frame on the current CPU's free list.  The debug `memset(pa, 1,
PGSIZE)` poisons only the page payload, which is not part of the allocator
state. -/
def kfree {ncpu : Nat} (kend PHYSTOP : Nat) (pa : Nat) (id : Fin ncpu)
    (s : KMem ncpu) : Option (KMem ncpu) :=
  if pa % PGSIZE ≠ 0 ∨ pa < kend ∨ PHYSTOP ≤ pa then none
  else some { freelist := Function.update s.freelist id (pa :: s.freelist id) }

/-- The steal loop of `kalloc` (`kalloc.c` lines 98-116): probe the shards
`(id + i) % NCPU` for the given list of offsets `i` and pop the head of the
first non-empty one. -/
def stealLoop {ncpu : Nat} (id : Fin ncpu) (s : KMem ncpu) :
    List Nat → Option Nat × KMem ncpu
  | [] => (none, s)
  | i :: rest =>
    match s.freelist (probe id i) with
    | r :: tail =>
      (some r, { freelist := Function.update s.freelist (probe id i) tail })
    | [] => stealLoop id s rest

/-- `kalloc()` (`kalloc.c` lines 85-124): pop the head of the current CPU's
shard; if it is empty, steal from `(id + i) % NCPU` for `i = 1 .. NCPU-1`.
The `memset(r, 5, PGSIZE)` junk fill touches only the page payload.  Returns
the allocated page address (or `none`) and the new state. -/
def kalloc {ncpu : Nat} (id : Fin ncpu) (s : KMem ncpu) : Option Nat × KMem ncpu :=
  match s.freelist id with
  | r :: tail => (some r, { freelist := Function.update s.freelist id tail })
  | [] => stealLoop id s (List.range' 1 (ncpu - 1))

/-! ## List helper lemmas -/

/-- `find?` only looks at the predicate's value on the list members. -/
theorem list_find?_agree {α : Type} (l : List α) (p q : α → Bool)
    (h : ∀ x ∈ l, p x = q x) : l.find? p = l.find? q := by
  induction l with
  | nil => rfl
  | cons a t ih =>
    have ha : p a = q a := h a (List.mem_cons_self a t)
    by_cases hq : q a = true
    · rw [List.find?_cons_of_pos _ (by rw [ha]; exact hq), List.find?_cons_of_pos _ hq]
    · rw [List.find?_cons_of_neg _ (by rw [ha]; exact hq), List.find?_cons_of_neg _ hq]
      exact ih fun x hx => h x (List.mem_cons_of_mem _ hx)

/-- Erasing an element `v` distinct from the found one, then switching to a
predicate that agrees off `v`, still finds the same first match. -/
theorem list_find?_erase {α : Type} [DecidableEq α] (l : List α) (p p' : α → Bool)
    (v j : α) (hnd : l.Nodup) (hj : j ≠ v) (hagree : ∀ x, x ≠ v → p' x = p x) :
    l.find? p = some j → (l.erase v).find? p' = some j := by
  induction l with
  | nil => simp
  | cons a t ih =>
    intro hfind
    by_cases hpa : p a = true
    · rw [List.find?_cons_of_pos _ hpa] at hfind
      obtain rfl : a = j := Option.some.inj hfind
      have hav : (a == v) = false := beq_eq_false_iff_ne.mpr hj
      rw [List.erase_cons, hav]
      simp only [Bool.false_eq_true, if_false]
      exact List.find?_cons_of_pos _ (by rw [hagree a hj]; exact hpa)
    · rw [List.find?_cons_of_neg _ hpa] at hfind
      rw [List.erase_cons]
      by_cases hav : a = v
      · rw [if_pos (by rw [beq_iff_eq]; exact hav)]
        have hvt : v ∉ t := hav ▸ (List.nodup_cons.mp hnd).1
        rw [list_find?_agree t p' p (fun x hx => hagree x (fun hxv => hvt (hxv ▸ hx)))]
        exact hfind
      · rw [if_neg (by rw [beq_iff_eq]; exact hav)]
        rw [List.find?_cons_of_neg _ (by rw [hagree a hav]; exact hpa)]
        exact ih (List.nodup_cons.mp hnd).2 hfind

/-! ## Pool-scan (`scanVictim`) lemmas -/

/-- `scanStep` skips a buffer that is in use. -/
theorem scanStep_skip {n : Nat} (bufs : Fin n → Buf) (acc : Option (Fin n)) (x : Fin n)
    (h : (bufs x).refcnt ≠ 0) : scanStep bufs acc x = acc := by
  unfold scanStep; rw [if_neg h]

/-- `scanStep` adopts the first free buffer. -/
theorem scanStep_first {n : Nat} (bufs : Fin n → Buf) (x : Fin n)
    (h : (bufs x).refcnt = 0) : scanStep bufs none x = some x := by
  unfold scanStep; rw [if_pos h]

/-- `scanStep` switches to a strictly older free buffer. -/
theorem scanStep_newmin {n : Nat} (bufs : Fin n → Buf) (a x : Fin n)
    (h : (bufs x).refcnt = 0) (hlt : (bufs x).lu_time < (bufs a).lu_time) :
    scanStep bufs (some a) x = some x := by
  unfold scanStep
  rw [if_pos h]
  show (if (bufs x).lu_time < (bufs a).lu_time then some x else some a) = some x
  rw [if_pos hlt]

/-- `scanStep` keeps the current minimum against a no-older free buffer. -/
theorem scanStep_keep {n : Nat} (bufs : Fin n → Buf) (a x : Fin n)
    (h : (bufs x).refcnt = 0) (hlt : ¬(bufs x).lu_time < (bufs a).lu_time) :
    scanStep bufs (some a) x = some a := by
  unfold scanStep
  rw [if_pos h]
  show (if (bufs x).lu_time < (bufs a).lu_time then some x else some a) = some a
  rw [if_neg hlt]

/-- The scan accumulator only ever holds a buffer with `refcnt = 0`. -/
theorem scanFold_refcnt {n : Nat} (bufs : Fin n → Buf) (l : List (Fin n)) :
    ∀ (acc : Option (Fin n)), (∀ j, acc = some j → (bufs j).refcnt = 0) →
    ∀ v, l.foldl (scanStep bufs) acc = some v → (bufs v).refcnt = 0 := by
  induction l with
  | nil => intro acc hacc v hv; rw [List.foldl_nil] at hv; exact hacc v hv
  | cons x t ih =>
    intro acc hacc v hv
    rw [List.foldl_cons] at hv
    refine ih _ ?_ v hv
    intro j hj
    by_cases hx : (bufs x).refcnt = 0
    · cases acc with
      | none => rw [scanStep_first bufs x hx] at hj; obtain rfl := Option.some.inj hj; exact hx
      | some a =>
        by_cases hlt : (bufs x).lu_time < (bufs a).lu_time
        · rw [scanStep_newmin bufs a x hx hlt] at hj
          obtain rfl := Option.some.inj hj; exact hx
        · rw [scanStep_keep bufs a x hx hlt] at hj
          obtain rfl := Option.some.inj hj; exact hacc _ rfl
    · rw [scanStep_skip bufs acc x hx] at hj; exact hacc _ hj

/-- If the scan returns nothing, the accumulator was empty and no scanned
buffer had `refcnt = 0`. -/
theorem scanFold_none {n : Nat} (bufs : Fin n → Buf) (l : List (Fin n)) :
    ∀ (acc : Option (Fin n)), l.foldl (scanStep bufs) acc = none →
      acc = none ∧ ∀ x ∈ l, (bufs x).refcnt ≠ 0 := by
  induction l with
  | nil => intro acc h; rw [List.foldl_nil] at h; exact ⟨h, by simp⟩
  | cons x t ih =>
    intro acc h
    rw [List.foldl_cons] at h
    obtain ⟨hacc', hall⟩ := ih _ h
    by_cases hx : (bufs x).refcnt = 0
    · exfalso
      cases acc with
      | none => rw [scanStep_first bufs x hx] at hacc'; exact Option.noConfusion hacc'
      | some a =>
        by_cases hlt : (bufs x).lu_time < (bufs a).lu_time
        · rw [scanStep_newmin bufs a x hx hlt] at hacc'; exact Option.noConfusion hacc'
        · rw [scanStep_keep bufs a x hx hlt] at hacc'; exact Option.noConfusion hacc'
    · rw [scanStep_skip bufs acc x hx] at hacc'
      refine ⟨hacc', ?_⟩
      intro y hy
      rcases List.mem_cons.mp hy with rfl | hyt
      · exact hx
      · exact hall y hyt

/-- The scan result minimises `lu_time` among the `refcnt = 0` buffers it
saw, and improves on the incoming accumulator. -/
theorem scanFold_min {n : Nat} (bufs : Fin n → Buf) (l : List (Fin n)) :
    ∀ (acc : Option (Fin n)) (v : Fin n), l.foldl (scanStep bufs) acc = some v →
      (∀ j, acc = some j → (bufs v).lu_time ≤ (bufs j).lu_time) ∧
      (∀ x ∈ l, (bufs x).refcnt = 0 → (bufs v).lu_time ≤ (bufs x).lu_time) := by
  induction l with
  | nil =>
    intro acc v hv
    rw [List.foldl_nil] at hv
    refine ⟨?_, by simp⟩
    intro j hj
    rw [hv] at hj
    obtain rfl := Option.some.inj hj
    exact le_refl _
  | cons x t ih =>
    intro acc v hv
    rw [List.foldl_cons] at hv
    obtain ⟨h1, h2⟩ := ih (scanStep bufs acc x) v hv
    constructor
    · intro j hj
      subst hj
      by_cases hx : (bufs x).refcnt = 0
      · by_cases hlt : (bufs x).lu_time < (bufs j).lu_time
        · have := h1 x (by rw [scanStep_newmin bufs j x hx hlt])
          exact le_trans this (le_of_lt hlt)
        · exact h1 j (by rw [scanStep_keep bufs j x hx hlt])
      · exact h1 j (by rw [scanStep_skip bufs _ x hx])
    · intro y hy hy0
      rcases List.mem_cons.mp hy with rfl | hyt
      · cases acc with
        | none => exact h1 y (by rw [scanStep_first bufs y hy0])
        | some a =>
          by_cases hlt : (bufs y).lu_time < (bufs a).lu_time
          · exact h1 y (by rw [scanStep_newmin bufs a y hy0 hlt])
          · have := h1 a (by rw [scanStep_keep bufs a y hy0 hlt])
            exact le_trans this (le_of_not_lt hlt)
      · exact h2 y hyt hy0

/-- A selected victim has `refcnt = 0` (`bio.c` line 130, re-checked at 143). -/
theorem scanVictim_refcnt {n : Nat} (bufs : Fin n → Buf) (v : Fin n)
    (h : scanVictim bufs = some v) : (bufs v).refcnt = 0 :=
  scanFold_refcnt bufs _ none (by intro j hj; exact Option.noConfusion hj) v h

/-- A selected victim minimises `lu_time` among all `refcnt = 0` buffers. -/
theorem scanVictim_min {n : Nat} (bufs : Fin n → Buf) (v : Fin n)
    (h : scanVictim bufs = some v) :
    ∀ j : Fin n, (bufs j).refcnt = 0 → (bufs v).lu_time ≤ (bufs j).lu_time := by
  intro j hj
  exact (scanFold_min bufs _ none v h).2 j (List.mem_finRange j) hj

/-- If the scan comes back empty, no buffer in the pool has `refcnt = 0`. -/
theorem scanVictim_none {n : Nat} (bufs : Fin n → Buf)
    (h : scanVictim bufs = none) : ∀ j : Fin n, (bufs j).refcnt ≠ 0 := by
  intro j
  exact (scanFold_none bufs _ none h).2 j (List.mem_finRange j)

/-- Conversely, a saturated pool makes the scan come back empty. -/
theorem scanVictim_none_of_saturated {n : Nat} (bufs : Fin n → Buf)
    (h : ∀ j : Fin n, (bufs j).refcnt ≠ 0) : scanVictim bufs = none := by
  cases hv : scanVictim bufs with
  | none => rfl
  | some v => exact absurd (scanVictim_refcnt bufs v hv) (h v)

/-! ## `bgetWhile` and `bget` characterisation -/

/-- With no eviction candidate the retry loop runs forever: any fuel bound is
exhausted.  This is `while(lru == 0)` never leaving its body via the loop
condition. -/
theorem bgetWhile_diverge {n : Nat} (dev blockno : Nat) (s : BCache n)
    (h : scanVictim s.bufs = none) :
    ∀ fuel, bgetWhile dev blockno s none fuel = .diverge := by
  intro fuel
  induction fuel with
  | zero => rfl
  | succ f ih =>
    unfold bgetWhile
    rw [h]
    exact ih

/-- A normal return from the retry loop is the scan's victim, rebound. -/
theorem bgetWhile_ok {n : Nat} (dev blockno : Nat) (s : BCache n) :
    ∀ (fuel : Nat) (i : Fin n) (s' : BCache n),
      bgetWhile dev blockno s none fuel = .ok i s' →
      scanVictim s.bufs = some i ∧ s' = evictState dev blockno i s := by
  intro fuel
  induction fuel with
  | zero => intro i s' h; exact absurd h (by unfold bgetWhile; simp)
  | succ f ih =>
    intro i s' h
    unfold bgetWhile at h
    cases hv : scanVictim s.bufs with
    | none =>
      rw [hv] at h
      have h1 := (ih i s' h).1
      rw [hv] at h1
      exact absurd h1 (by simp)
    | some lru =>
      rw [hv] at h
      have h' : (if (s.bufs lru).refcnt ≠ 0 then bgetWhile dev blockno s none f
          else BRes.ok lru (evictState dev blockno lru s)) = BRes.ok i s' := h
      rw [if_neg (not_not_intro (scanVictim_refcnt s.bufs lru hv))] at h'
      injection h' with e1 e2
      subst e1
      exact ⟨rfl, e2.symm⟩

/-- The two exits of `bget`: a (double-checked) hit in the home bucket, or a
miss resolved by evicting the scan's victim. -/
theorem bget_ok_cases {n : Nat} (dev blockno : Nat) (s : BCache n) (fuel : Nat)
    (i : Fin n) (s' : BCache n) (h : bget dev blockno s fuel = .ok i s') :
    ((s.buckets (bhash blockno)).find? (fun j => bmatch dev blockno (s.bufs j)) = some i
      ∧ s' = hitUpdate s i)
    ∨ ((s.buckets (bhash blockno)).find? (fun j => bmatch dev blockno (s.bufs j)) = none
      ∧ scanVictim s.bufs = some i ∧ s' = evictState dev blockno i s) := by
  unfold bget at h
  cases hf : (s.buckets (bhash blockno)).find? (fun j => bmatch dev blockno (s.bufs j)) with
  | some j =>
    rw [hf] at h
    have h' : BRes.ok j (hitUpdate s j) = BRes.ok i s' := h
    injection h' with e1 e2
    subst e1
    exact Or.inl ⟨rfl, e2.symm⟩
  | none =>
    rw [hf] at h
    have h' : bgetWhile dev blockno s none fuel = BRes.ok i s' := h
    obtain ⟨hv, hs⟩ := bgetWhile_ok dev blockno s fuel i s' h'
    exact Or.inr ⟨rfl, hv, hs⟩

/-! ## Preservation of `CacheInv` -/

/-- An identity-preserving pool update leaves every buffer's `(dev, blockno)`
projections unchanged. -/
theorem update_ident_ext {n : Nat} (bufs : Fin n → Buf) (i : Fin n) (b' : Buf)
    (hdev : b'.dev = (bufs i).dev) (hbno : b'.blockno = (bufs i).blockno) :
    ∀ j, (Function.update bufs i b' j).dev = (bufs j).dev ∧
         (Function.update bufs i b' j).blockno = (bufs j).blockno := by
  intro j
  by_cases hji : j = i
  · subst hji
    rw [Function.update_same j b' bufs]
    exact ⟨hdev, hbno⟩
  · rw [Function.update_noteq hji b' bufs]
    exact ⟨rfl, rfl⟩

/-- The bucket-scan predicate only inspects buffer identities. -/
theorem find?_bmatch_ext {n : Nat} (l : List (Fin n)) (d b : Nat) (f g : Fin n → Buf)
    (h : ∀ j, (f j).dev = (g j).dev ∧ (f j).blockno = (g j).blockno) :
    l.find? (fun x => bmatch d b (f x)) = l.find? (fun x => bmatch d b (g x)) := by
  apply list_find?_agree
  intro x _
  unfold bmatch
  rw [(h x).1, (h x).2]

/-- `CacheInv` only depends on the pool and the bucket lists. -/
theorem cacheInv_congr {n : Nat} (s s' : BCache n) (inv : CacheInv s)
    (hbf : s'.bufs = s.bufs) (hbk : s'.buckets = s.buckets) : CacheInv s' := by
  constructor
  · intro j; rw [hbf, hbk]; exact inv.home j
  · intro k j hj; rw [hbk] at hj; rw [hbf]; exact inv.uniq k j hj
  · intro k; rw [hbk]; exact inv.nodup k
  · intro j hc; rw [hbf] at hc ⊢; rw [hbk]; exact inv.firstm j hc
  · intro j; rw [hbf]; exact inv.lub j

/-- `CacheInv` is preserved by rewriting one buffer without touching its
identity or the bucket lists, provided the new buffer, if it counts as
cached, was already the first match for its block. -/
theorem cacheInv_update {n : Nat} (s s' : BCache n) (i : Fin n) (b' : Buf)
    (inv : CacheInv s)
    (hbk : s'.buckets = s.buckets)
    (hbf : s'.bufs = Function.update s.bufs i b')
    (hdev : b'.dev = (s.bufs i).dev) (hbno : b'.blockno = (s.bufs i).blockno)
    (hlu : -1 ≤ b'.lu_time)
    (hc : Cached b' →
      (s.buckets (bhash (s.bufs i).blockno)).find?
        (fun j => bmatch (s.bufs i).dev (s.bufs i).blockno (s.bufs j)) = some i) :
    CacheInv s' := by
  have hid : ∀ j, (s'.bufs j).dev = (s.bufs j).dev ∧
      (s'.bufs j).blockno = (s.bufs j).blockno := by
    rw [hbf]; exact update_ident_ext s.bufs i b' hdev hbno
  constructor
  · intro j
    rw [hbk, (hid j).2]
    exact inv.home j
  · intro k j hj
    rw [hbk] at hj
    rw [(hid j).2]
    exact inv.uniq k j hj
  · intro k; rw [hbk]; exact inv.nodup k
  · intro j hcj
    rw [hbk, (hid j).1, (hid j).2, find?_bmatch_ext _ _ _ s'.bufs s.bufs hid]
    by_cases hji : j = i
    · subst hji
      have hjb : s'.bufs j = b' := by rw [hbf]; exact Function.update_same j b' s.bufs
      rw [hjb] at hcj
      exact hc hcj
    · have hjb : s'.bufs j = s.bufs j := by rw [hbf]; exact Function.update_noteq hji b' s.bufs
      rw [hjb] at hcj
      exact inv.firstm j hcj
  · intro j
    by_cases hji : j = i
    · subst hji
      have hjb : s'.bufs j = b' := by rw [hbf]; exact Function.update_same j b' s.bufs
      rw [hjb]; exact hlu
    · have hjb : s'.bufs j = s.bufs j := by rw [hbf]; exact Function.update_noteq hji b' s.bufs
      rw [hjb]; exact inv.lub j

/-- The bucket lists produced by `evictState`. -/
theorem evictState_buckets {n : Nat} (dev blockno : Nat) (v : Fin n) (s : BCache n) :
    ∀ k, (evictState dev blockno v s).buckets k =
      if k = bhash blockno then v :: (s.buckets (bhash blockno)).erase v
      else (s.buckets k).erase v := by
  intro k
  simp only [evictState]
  by_cases hk : k = bhash blockno
  · subst hk
    rw [if_pos rfl, Function.update_same]
  · rw [if_neg hk, Function.update_noteq hk]

/-- The victim buffer after `evictState`: rebound to the new block, invalid,
referenced once, sleep-locked; `lu_time` and `data` are untouched. -/
theorem evictState_bufs_self {n : Nat} (dev blockno : Nat) (v : Fin n) (s : BCache n) :
    (evictState dev blockno v s).bufs v = { s.bufs v with dev := dev, blockno := blockno, valid := false, refcnt := 1, lockHeld := true } := by
  simp only [evictState]
  rw [Function.update_same]

/-- All other buffers are untouched by `evictState`. -/
theorem evictState_bufs_other {n : Nat} (dev blockno : Nat) (v : Fin n) (s : BCache n)
    (j : Fin n) (hj : j ≠ v) : (evictState dev blockno v s).bufs j = s.bufs j := by
  simp only [evictState]
  rw [Function.update_noteq hj]

/-- Eviction on a genuine miss preserves `CacheInv`. -/
theorem cacheInv_evict {n : Nat} (dev blockno : Nat) (v : Fin n) (s : BCache n)
    (inv : CacheInv s)
    (hmiss : (s.buckets (bhash blockno)).find?
      (fun j => bmatch dev blockno (s.bufs j)) = none) :
    CacheInv (evictState dev blockno v s) := by
  have hbk := evictState_buckets dev blockno v s
  have hbo := evictState_bufs_other dev blockno v s
  have hdv : ((evictState dev blockno v s).bufs v).dev = dev := by
    rw [evictState_bufs_self]
  have hbnov : ((evictState dev blockno v s).bufs v).blockno = blockno := by
    rw [evictState_bufs_self]
  have hrefv : ((evictState dev blockno v s).bufs v).refcnt = 1 := by
    rw [evictState_bufs_self]
  have hluv : ((evictState dev blockno v s).bufs v).lu_time = (s.bufs v).lu_time := by
    rw [evictState_bufs_self]
  constructor
  · -- home
    intro j
    by_cases hjv : j = v
    · subst hjv
      rw [hbnov, hbk (bhash blockno), if_pos rfl]
      exact List.mem_cons_self _ _
    · rw [hbo j hjv]
      have hold := inv.home j
      by_cases he : bhash (s.bufs j).blockno = bhash blockno
      · rw [hbk _, if_pos he]
        exact List.mem_cons_of_mem _ ((List.mem_erase_of_ne hjv).mpr (he ▸ hold))
      · rw [hbk _, if_neg he]
        exact (List.mem_erase_of_ne hjv).mpr hold
  · -- uniq
    intro k j hj
    rw [hbk k] at hj
    by_cases hk : k = bhash blockno
    · rw [if_pos hk] at hj
      rcases List.mem_cons.mp hj with rfl | hjer
      · rw [hbnov]; exact hk
      · have hmem := (inv.nodup (bhash blockno)).mem_erase_iff.mp hjer
        rw [hbo j hmem.1, hk]
        exact inv.uniq (bhash blockno) j hmem.2
    · rw [if_neg hk] at hj
      have hmem := (inv.nodup k).mem_erase_iff.mp hj
      rw [hbo j hmem.1]
      exact inv.uniq k j hmem.2
  · -- nodup
    intro k
    rw [hbk k]
    by_cases hk : k = bhash blockno
    · rw [if_pos hk]
      exact List.nodup_cons.mpr
        ⟨(inv.nodup (bhash blockno)).not_mem_erase, (inv.nodup (bhash blockno)).erase v⟩
    · rw [if_neg hk]
      exact (inv.nodup k).erase v
  · -- firstm
    intro j hcj
    by_cases hjv : j = v
    · subst hjv
      rw [hdv, hbnov, hbk (bhash blockno), if_pos rfl]
      apply List.find?_cons_of_pos
      unfold bmatch
      rw [hdv, hbnov]
      simp
    · have hje : (evictState dev blockno v s).bufs j = s.bufs j := hbo j hjv
      rw [hje] at hcj ⊢
      have hold := inv.firstm j hcj
      have hagree : ∀ x, x ≠ v →
          (fun x => bmatch (s.bufs j).dev (s.bufs j).blockno
            ((evictState dev blockno v s).bufs x)) x =
          (fun x => bmatch (s.bufs j).dev (s.bufs j).blockno (s.bufs x)) x := by
        intro x hxv
        simp only
        rw [hbo x hxv]
      by_cases he : bhash (s.bufs j).blockno = bhash blockno
      · rw [hbk _, if_pos he]
        have hpv : bmatch (s.bufs j).dev (s.bufs j).blockno
            ((evictState dev blockno v s).bufs v) = false := by
          unfold bmatch
          rw [hdv, hbnov]
          simp only [Bool.and_eq_false_iff]
          by_cases hd : dev = (s.bufs j).dev
          · by_cases hb : blockno = (s.bufs j).blockno
            · exfalso
              have hjmem : j ∈ s.buckets (bhash blockno) := he ▸ inv.home j
              apply (List.find?_eq_none.mp hmiss) j hjmem
              unfold bmatch
              rw [hd, hb]
              simp
            · right; rw [beq_eq_false_iff_ne]; exact hb
          · left; rw [beq_eq_false_iff_ne]; exact hd
        rw [List.find?_cons_of_neg _ (by rw [hpv]; simp)]
        exact list_find?_erase _ _ _ v j (he ▸ inv.nodup _) hjv hagree (he ▸ hold)
      · rw [hbk _, if_neg he]
        exact list_find?_erase _ _ _ v j (inv.nodup _) hjv hagree hold
  · -- lub
    intro j
    by_cases hjv : j = v
    · subst hjv
      rw [hluv]
      exact inv.lub j
    · rw [hbo j hjv]
      exact inv.lub j

/-! ## Projection lemmas for the operation bodies -/

/-- The hit path updates only the found buffer. -/
theorem hitUpdate_bufs_self {n : Nat} (s : BCache n) (i : Fin n) :
    (hitUpdate s i).bufs i = { s.bufs i with refcnt := (s.bufs i).refcnt + 1, lockHeld := true } := by
  simp only [hitUpdate]
  rw [Function.update_same]

/-- The hit path leaves all other buffers alone. -/
theorem hitUpdate_bufs_other {n : Nat} (s : BCache n) (i j : Fin n) (hj : j ≠ i) :
    (hitUpdate s i).bufs j = s.bufs j := by
  simp only [hitUpdate]
  rw [Function.update_noteq hj]

/-- The hit path does not touch the bucket lists, clock, disk or log. -/
theorem hitUpdate_rest {n : Nat} (s : BCache n) (i : Fin n) :
    (hitUpdate s i).buckets = s.buckets ∧ (hitUpdate s i).ticks = s.ticks ∧
    (hitUpdate s i).disk = s.disk ∧ (hitUpdate s i).iolog = s.iolog :=
  ⟨rfl, rfl, rfl, rfl⟩

/-- A disk read fills the buffer's data from the disk image. -/
theorem virtio_read_bufs {n : Nat} (s : BCache n) (i : Fin n) :
    (virtio_disk_rw s i false).bufs =
      Function.update s.bufs i
        ({ s.bufs i with data := s.disk (s.bufs i).dev (s.bufs i).blockno }) := rfl

/-- A disk read logs one read event and changes nothing else global. -/
theorem virtio_read_rest {n : Nat} (s : BCache n) (i : Fin n) :
    (virtio_disk_rw s i false).buckets = s.buckets ∧
    (virtio_disk_rw s i false).ticks = s.ticks ∧
    (virtio_disk_rw s i false).disk = s.disk ∧
    (virtio_disk_rw s i false).iolog = ((s.bufs i).dev, (s.bufs i).blockno, false) :: s.iolog :=
  ⟨rfl, rfl, rfl, rfl⟩

/-- A disk write does not touch the pool or the bucket lists, and logs one
write event. -/
theorem virtio_write_rest {n : Nat} (s : BCache n) (i : Fin n) :
    (virtio_disk_rw s i true).bufs = s.bufs ∧
    (virtio_disk_rw s i true).buckets = s.buckets ∧
    (virtio_disk_rw s i true).ticks = s.ticks ∧
    (virtio_disk_rw s i true).iolog = ((s.bufs i).dev, (s.bufs i).blockno, true) :: s.iolog :=
  ⟨rfl, rfl, rfl, rfl⟩

/-- On a held buffer `brelse` releases the sleep-lock, decrements the
refcount and stamps the release tick. -/
theorem brelse_of_held {n : Nat} (s : BCache n) (i : Fin n)
    (h : (s.bufs i).lockHeld = true) :
    brelse i s = some { s with bufs := Function.update s.bufs i ({ s.bufs i with lockHeld := false, refcnt := (s.bufs i).refcnt - 1, lu_time := (s.ticks : Int) }) } := by
  unfold brelse
  rw [if_pos h]

/-- On a buffer whose sleep-lock is not held, `brelse` panics. -/
theorem brelse_of_not_held {n : Nat} (s : BCache n) (i : Fin n)
    (h : (s.bufs i).lockHeld = false) : brelse i s = none := by
  unfold brelse
  rw [if_neg (by rw [h]; simp)]

/-- On a held buffer `bwrite` performs the disk write. -/
theorem bwrite_of_held {n : Nat} (s : BCache n) (i : Fin n)
    (h : (s.bufs i).lockHeld = true) : bwrite i s = some (virtio_disk_rw s i true) := by
  unfold bwrite
  rw [if_pos h]

/-- On a buffer whose sleep-lock is not held, `bwrite` panics. -/
theorem bwrite_of_not_held {n : Nat} (s : BCache n) (i : Fin n)
    (h : (s.bufs i).lockHeld = false) : bwrite i s = none := by
  unfold bwrite
  rw [if_neg (by rw [h]; simp)]

/-- `bpin` increments exactly the target's refcount. -/
theorem bpin_bufs {n : Nat} (i : Fin n) (s : BCache n) :
    (bpin i s).bufs = Function.update s.bufs i ({ s.bufs i with refcnt := (s.bufs i).refcnt + 1 }) := rfl

/-- `bunpin` decrements exactly the target's refcount. -/
theorem bunpin_bufs {n : Nat} (i : Fin n) (s : BCache n) :
    (bunpin i s).bufs = Function.update s.bufs i ({ s.bufs i with refcnt := (s.bufs i).refcnt - 1 }) := rfl

/-! ## `bget`/`bread` postconditions and invariant preservation -/

/-- A buffer handed out by `bget` carries the requested identity and is the
first match for it in its (current) home bucket. -/
theorem bget_ok_ident {n : Nat} (dev blockno : Nat) (s : BCache n) (fuel : Nat)
    (i : Fin n) (s' : BCache n) (h : bget dev blockno s fuel = .ok i s') :
    (s'.bufs i).dev = dev ∧ (s'.bufs i).blockno = blockno ∧
    (s'.buckets (bhash blockno)).find? (fun j => bmatch dev blockno (s'.bufs j)) = some i := by
  rcases bget_ok_cases dev blockno s fuel i s' h with ⟨hf, rfl⟩ | ⟨hm, hv, rfl⟩
  · have hmt := List.find?_some hf
    unfold bmatch at hmt
    rw [Bool.and_eq_true] at hmt
    have hdev : (s.bufs i).dev = dev := by
      have := hmt.1; rwa [beq_iff_eq] at this
    have hbno : (s.bufs i).blockno = blockno := by
      have := hmt.2; rwa [beq_iff_eq] at this
    have hid : ∀ j, ((hitUpdate s i).bufs j).dev = (s.bufs j).dev ∧
        ((hitUpdate s i).bufs j).blockno = (s.bufs j).blockno := by
      intro j
      by_cases hj : j = i
      · subst hj; rw [hitUpdate_bufs_self]; exact ⟨rfl, rfl⟩
      · rw [hitUpdate_bufs_other s i j hj]; exact ⟨rfl, rfl⟩
    refine ⟨by rw [(hid i).1, hdev], by rw [(hid i).2, hbno], ?_⟩
    rw [(hitUpdate_rest s i).1, find?_bmatch_ext _ _ _ (hitUpdate s i).bufs s.bufs hid]
    exact hf
  · have hdv : ((evictState dev blockno i s).bufs i).dev = dev := by
      rw [evictState_bufs_self]
    have hbnov : ((evictState dev blockno i s).bufs i).blockno = blockno := by
      rw [evictState_bufs_self]
    refine ⟨hdv, hbnov, ?_⟩
    rw [evictState_buckets dev blockno i s, if_pos rfl]
    apply List.find?_cons_of_pos
    unfold bmatch
    rw [hdv, hbnov]
    simp

/-- The hit path preserves the cache invariant. -/
theorem cacheInv_hit {n : Nat} (dev blockno : Nat) (s : BCache n) (i : Fin n)
    (inv : CacheInv s)
    (hf : (s.buckets (bhash blockno)).find? (fun j => bmatch dev blockno (s.bufs j)) = some i) :
    CacheInv (hitUpdate s i) := by
  have hmt := List.find?_some hf
  unfold bmatch at hmt
  rw [Bool.and_eq_true] at hmt
  have hdev : (s.bufs i).dev = dev := by
    have := hmt.1; rwa [beq_iff_eq] at this
  have hbno : (s.bufs i).blockno = blockno := by
    have := hmt.2; rwa [beq_iff_eq] at this
  apply cacheInv_update s (hitUpdate s i) i
    ({ s.bufs i with refcnt := (s.bufs i).refcnt + 1, lockHeld := true })
    inv rfl rfl rfl rfl (inv.lub i)
  intro _
  rw [hdev, hbno]
  exact hf

/-- `bget` preserves the cache invariant. -/
theorem cacheInv_bget {n : Nat} (dev blockno : Nat) (s : BCache n) (fuel : Nat)
    (i : Fin n) (s' : BCache n) (inv : CacheInv s)
    (h : bget dev blockno s fuel = .ok i s') : CacheInv s' := by
  rcases bget_ok_cases dev blockno s fuel i s' h with ⟨hf, rfl⟩ | ⟨hm, _, rfl⟩
  · exact cacheInv_hit dev blockno s i inv hf
  · exact cacheInv_evict dev blockno i s inv hm

/-- Filling an invalid buffer from disk preserves the cache invariant,
provided the buffer is the first match for its block (which `bget`
guarantees). -/
theorem cacheInv_readFill {n : Nat} (s₁ : BCache n) (i : Fin n) (inv : CacheInv s₁)
    (hfm : (s₁.buckets (bhash (s₁.bufs i).blockno)).find?
      (fun j => bmatch (s₁.bufs i).dev (s₁.bufs i).blockno (s₁.bufs j)) = some i) :
    CacheInv (readFill s₁ i) := by
  have invA : CacheInv (virtio_disk_rw s₁ i false) := by
    apply cacheInv_update s₁ (virtio_disk_rw s₁ i false) i
      ({ s₁.bufs i with data := s₁.disk (s₁.bufs i).dev (s₁.bufs i).blockno })
      inv (virtio_read_rest s₁ i).1 (virtio_read_bufs s₁ i) rfl rfl (inv.lub i)
    intro _
    exact hfm
  have hidA : ∀ j, ((virtio_disk_rw s₁ i false).bufs j).dev = (s₁.bufs j).dev ∧
      ((virtio_disk_rw s₁ i false).bufs j).blockno = (s₁.bufs j).blockno := by
    rw [virtio_read_bufs]
    exact update_ident_ext s₁.bufs i _ rfl rfl
  apply cacheInv_update (virtio_disk_rw s₁ i false) (readFill s₁ i) i
    ({ (virtio_disk_rw s₁ i false).bufs i with valid := true })
    invA rfl rfl rfl rfl (invA.lub i)
  intro _
  rw [(hidA i).1, (hidA i).2, (virtio_read_rest s₁ i).1,
    find?_bmatch_ext _ _ _ (virtio_disk_rw s₁ i false).bufs s₁.bufs hidA]
  exact hfm

/-- The two exits of `bread`: the buffer was already valid, or it has just
been filled by one disk read. -/
theorem bread_ok_cases {n : Nat} (dev blockno : Nat) (s : BCache n) (fuel : Nat)
    (i : Fin n) (s' : BCache n) (h : bread dev blockno s fuel = .ok i s') :
    ∃ s₁, bget dev blockno s fuel = .ok i s₁ ∧
      (((s₁.bufs i).valid = true ∧ s' = s₁) ∨
       ((s₁.bufs i).valid = false ∧ s' = readFill s₁ i)) := by
  unfold bread at h
  cases hb : bget dev blockno s fuel with
  | ok j s₁ =>
    rw [hb] at h
    have h' : (if (s₁.bufs j).valid then BRes.ok j s₁ else BRes.ok j (readFill s₁ j)) =
        BRes.ok i s' := h
    cases hv : (s₁.bufs j).valid with
    | true =>
      rw [if_pos hv] at h'
      injection h' with e1 e2
      subst e1
      exact ⟨s₁, rfl, Or.inl ⟨hv, e2.symm⟩⟩
    | false =>
      rw [if_neg (by rw [hv]; simp)] at h'
      injection h' with e1 e2
      subst e1
      exact ⟨s₁, rfl, Or.inr ⟨hv, e2.symm⟩⟩
  | panicked msg => rw [hb] at h; exact absurd h (by simp)
  | diverge => rw [hb] at h; exact absurd h (by simp)

/-- `bread` preserves the cache invariant. -/
theorem cacheInv_bread {n : Nat} (dev blockno : Nat) (s : BCache n) (fuel : Nat)
    (i : Fin n) (s' : BCache n) (inv : CacheInv s)
    (h : bread dev blockno s fuel = .ok i s') : CacheInv s' := by
  obtain ⟨s₁, hb, hcase⟩ := bread_ok_cases dev blockno s fuel i s' h
  have inv₁ := cacheInv_bget dev blockno s fuel i s₁ inv hb
  rcases hcase with ⟨_, rfl⟩ | ⟨_, rfl⟩
  · exact inv₁
  · obtain ⟨hdev, hbno, hfind⟩ := bget_ok_ident dev blockno s fuel i s₁ hb
    apply cacheInv_readFill s₁ i inv₁
    rw [hdev, hbno]
    exact hfind

/-- Every completed legal operation preserves the cache invariant. -/
theorem stepOp_inv {n : Nat} (op : CacheOp n) (s s' : BCache n) (inv : CacheInv s)
    (hpre : legalPre op s) (h : stepOp op s = some s') : CacheInv s' := by
  cases op with
  | opBread d b fuel =>
    simp only [stepOp] at h
    cases hb : bread d b s fuel with
    | ok j s₁ =>
      rw [hb] at h
      have h' : some s₁ = some s' := h
      obtain rfl := Option.some.inj h'
      exact cacheInv_bread d b s fuel j _ inv hb
    | panicked msg => rw [hb] at h; exact absurd h (by simp)
    | diverge => rw [hb] at h; exact absurd h (by simp)
  | opBwrite i =>
    simp only [stepOp] at h
    cases hheld : (s.bufs i).lockHeld with
    | true =>
      rw [bwrite_of_held s i hheld] at h
      obtain rfl := Option.some.inj h
      exact cacheInv_congr s _ inv (virtio_write_rest s i).1 (virtio_write_rest s i).2.1
    | false => rw [bwrite_of_not_held s i hheld] at h; exact absurd h (by simp)
  | opBrelse i =>
    simp only [stepOp] at h
    cases hheld : (s.bufs i).lockHeld with
    | true =>
      rw [brelse_of_held s i hheld] at h
      obtain rfl := Option.some.inj h
      refine cacheInv_update s _ i ({ s.bufs i with lockHeld := false, refcnt := (s.bufs i).refcnt - 1, lu_time := (s.ticks : Int) }) inv rfl rfl rfl rfl ?_ ?_
      · show (-1 : Int) ≤ (s.ticks : Int)
        omega
      · intro hc
        apply inv.firstm i
        rcases hc with hr | hv
        · have hr' : 0 < (s.bufs i).refcnt - 1 := hr
          exact Or.inl (by omega)
        · have hv' : (s.bufs i).valid = true := hv
          exact Or.inr hv'
    | false => rw [brelse_of_not_held s i hheld] at h; exact absurd h (by simp)
  | opBpin i =>
    simp only [stepOp] at h
    obtain rfl := Option.some.inj h
    have hpre' : 1 ≤ (s.bufs i).refcnt := hpre
    refine cacheInv_update s _ i ({ s.bufs i with refcnt := (s.bufs i).refcnt + 1 }) inv rfl (bpin_bufs i s) rfl rfl (inv.lub i) ?_
    intro _
    exact inv.firstm i (Or.inl (by omega))
  | opBunpin i =>
    simp only [stepOp] at h
    obtain rfl := Option.some.inj h
    refine cacheInv_update s _ i ({ s.bufs i with refcnt := (s.bufs i).refcnt - 1 }) inv rfl (bunpin_bufs i s) rfl rfl (inv.lub i) ?_
    intro hc
    apply inv.firstm i
    rcases hc with hr | hv
    · have hr' : 0 < (s.bufs i).refcnt - 1 := hr
      exact Or.inl (by omega)
    · have hv' : (s.bufs i).valid = true := hv
      exact Or.inr hv'
  | opTick =>
    simp only [stepOp] at h
    obtain rfl := Option.some.inj h
    exact cacheInv_congr s _ inv rfl rfl

/-- The freshly initialised cache satisfies the invariant. -/
theorem cacheInv_binit (n : Nat) (disk0 : Nat → Nat → Nat) :
    CacheInv (binit n disk0) := by
  have hbuf : ∀ i : Fin n, (binit n disk0).bufs i =
      { dev := 0, blockno := 0, valid := false, refcnt := 0,
        lu_time := -1, data := 0, lockHeld := false } := fun _ => rfl
  have hb0 : bhash 0 = (0 : Fin 13) := rfl
  have hbk : ∀ k, (binit n disk0).buckets k =
      if k = (0 : Fin 13) then (List.finRange n).reverse else [] := fun _ => rfl
  constructor
  · intro i
    rw [hbuf i]
    show i ∈ (binit n disk0).buckets (bhash 0)
    rw [hb0, hbk, if_pos rfl]
    exact List.mem_reverse.mpr (List.mem_finRange i)
  · intro k i hi
    rw [hbk] at hi
    by_cases hk : k = (0 : Fin 13)
    · rw [hbuf i]
      show k = bhash 0
      rw [hb0]
      exact hk
    · rw [if_neg hk] at hi
      exact absurd hi (List.not_mem_nil i)
  · intro k
    rw [hbk]
    by_cases hk : k = (0 : Fin 13)
    · rw [if_pos hk]
      exact List.nodup_reverse.mpr (List.nodup_finRange n)
    · rw [if_neg hk]
      exact List.nodup_nil
  · intro i hc
    exfalso
    rw [hbuf i] at hc
    rcases hc with hr | hv
    · exact absurd hr (by norm_num)
    · exact absurd hv (by simp)
  · intro i
    rw [hbuf i]

/-- Every state reachable by completed legal operations from `binit`
satisfies the cache invariant. -/
theorem legalReach_inv {n : Nat} {disk0 : Nat → Nat → Nat} {s : BCache n}
    (h : LegalReach n disk0 s) : CacheInv s := by
  induction h with
  | init => exact cacheInv_binit n disk0
  | step op _ hpre hstep ih => exact stepOp_inv op _ _ ih hpre hstep

/-! ## Further projection lemmas -/

/-- Eviction does not touch the clock, the disk or the I/O log. -/
theorem evictState_rest {n : Nat} (dev blockno : Nat) (v : Fin n) (s : BCache n) :
    (evictState dev blockno v s).ticks = s.ticks ∧
    (evictState dev blockno v s).disk = s.disk ∧
    (evictState dev blockno v s).iolog = s.iolog :=
  ⟨rfl, rfl, rfl⟩

/-- The buffer just filled by `readFill`: valid, loaded from the disk image,
all remaining fields intact. -/
theorem readFill_bufs_self {n : Nat} (s₁ : BCache n) (i : Fin n) :
    (readFill s₁ i).bufs i = { s₁.bufs i with valid := true, data := s₁.disk (s₁.bufs i).dev (s₁.bufs i).blockno } := by
  simp only [readFill, virtio_read_bufs]
  rw [Function.update_same, Function.update_same]

/-- `readFill` leaves every other buffer alone. -/
theorem readFill_bufs_other {n : Nat} (s₁ : BCache n) (i j : Fin n) (hj : j ≠ i) :
    (readFill s₁ i).bufs j = s₁.bufs j := by
  simp only [readFill, virtio_read_bufs]
  rw [Function.update_noteq hj, Function.update_noteq hj]

/-- `readFill` logs exactly one read of the buffer's block and does not touch
the bucket lists, the clock or the disk image. -/
theorem readFill_rest {n : Nat} (s₁ : BCache n) (i : Fin n) :
    (readFill s₁ i).buckets = s₁.buckets ∧ (readFill s₁ i).ticks = s₁.ticks ∧
    (readFill s₁ i).disk = s₁.disk ∧
    (readFill s₁ i).iolog = ((s₁.bufs i).dev, (s₁.bufs i).blockno, false) :: s₁.iolog :=
  ⟨rfl, rfl, rfl, rfl⟩

instance (b : Buf) : Decidable (Cached b) := by
  unfold Cached
  exact inferInstance

/-! ## Claim theorems: the buffer cache -/

/-- C1: a `bget(dev, blockno)` call that misses both bucket scans returns a
pool buffer that had `refcnt = 0` and minimal `lu_time` among the `refcnt = 0`
pool buffers at scan time; before returning, its `dev`/`blockno` are
overwritten with the arguments, `valid` is cleared, `refcnt` is set to 1, and
it is linked at the head of bucket `blockno % NBUCKET`. -/
theorem C1_bget_miss_evicts_lru {n : Nat} (dev blockno fuel : Nat) (s : BCache n)
    (i : Fin n) (s' : BCache n)
    (hmiss : (s.buckets (bhash blockno)).find?
      (fun j => bmatch dev blockno (s.bufs j)) = none)
    (h : bget dev blockno s fuel = .ok i s') :
    (s.bufs i).refcnt = 0 ∧
    (∀ j : Fin n, (s.bufs j).refcnt = 0 → (s.bufs i).lu_time ≤ (s.bufs j).lu_time) ∧
    (s'.bufs i).dev = dev ∧ (s'.bufs i).blockno = blockno ∧
    (s'.bufs i).valid = false ∧ (s'.bufs i).refcnt = 1 ∧
    (s'.buckets (bhash blockno)).head? = some i := by
  rcases bget_ok_cases dev blockno s fuel i s' h with ⟨hf, _⟩ | ⟨_, hv, rfl⟩
  · rw [hmiss] at hf
    exact absurd hf (by simp)
  · refine ⟨scanVictim_refcnt s.bufs i hv, scanVictim_min s.bufs i hv, ?_, ?_, ?_, ?_, ?_⟩
    · rw [evictState_bufs_self]
    · rw [evictState_bufs_self]
    · rw [evictState_bufs_self]
    · rw [evictState_bufs_self]
    · rw [evictState_buckets dev blockno i s, if_pos rfl]
      rfl

/-- C2 (code evidence): when every pool buffer is referenced for the whole
miss, the eviction loop finds no candidate and spins forever re-scanning —
for every fuel bound `bget` diverges and in particular never reaches the
`panic("bget: no buffers")` after the loop. -/
theorem C2_bget_saturated_loops_forever {n : Nat} (dev blockno fuel : Nat)
    (s : BCache n)
    (hsat : ∀ j : Fin n, 0 < (s.bufs j).refcnt)
    (hmiss : (s.buckets (bhash blockno)).find?
      (fun j => bmatch dev blockno (s.bufs j)) = none) :
    bget dev blockno s fuel = .diverge ∧
    bget dev blockno s fuel ≠ .panicked "bget: no buffers" := by
  have hnone := scanVictim_none_of_saturated s.bufs (fun j => by have := hsat j; omega)
  have hb : bget dev blockno s fuel = bgetWhile dev blockno s none fuel := by
    unfold bget
    rw [hmiss]
  rw [hb, bgetWhile_diverge dev blockno s hnone fuel]
  exact ⟨rfl, by simp⟩

/-- C3: `bread` issues exactly one disk read (of the requested block) when
`bget` hands back an invalid buffer, and sets `valid`; it issues no I/O at
all when the buffer is already valid; `bget` itself never performs I/O, and
on a cache hit it only increments the refcount and takes the sleep-lock. -/
theorem C3_bread_reads_once {n : Nat} (dev blockno fuel : Nat) (s : BCache n)
    (i : Fin n) (s₁ : BCache n)
    (h : bget dev blockno s fuel = .ok i s₁) :
    s₁.iolog = s.iolog ∧
    ((s₁.bufs i).valid = false →
      bread dev blockno s fuel = .ok i (readFill s₁ i) ∧
      (readFill s₁ i).iolog = (dev, blockno, false) :: s₁.iolog ∧
      ((readFill s₁ i).bufs i).valid = true ∧
      (∀ j, j ≠ i → (readFill s₁ i).bufs j = s₁.bufs j)) ∧
    ((s₁.bufs i).valid = true → bread dev blockno s fuel = .ok i s₁) ∧
    (∀ k, (s.buckets (bhash blockno)).find?
        (fun j => bmatch dev blockno (s.bufs j)) = some k →
      i = k ∧ s₁ = hitUpdate s i ∧
      (s₁.bufs i).refcnt = (s.bufs i).refcnt + 1 ∧ (s₁.bufs i).lockHeld = true ∧
      (s₁.bufs i).valid = (s.bufs i).valid ∧ (s₁.bufs i).dev = (s.bufs i).dev ∧
      (s₁.bufs i).blockno = (s.bufs i).blockno ∧ (s₁.bufs i).data = (s.bufs i).data ∧
      (∀ j, j ≠ i → s₁.bufs j = s.bufs j) ∧ s₁.buckets = s.buckets) := by
  obtain ⟨hdev, hbno, _⟩ := bget_ok_ident dev blockno s fuel i s₁ h
  refine ⟨?_, ?_, ?_, ?_⟩
  · rcases bget_ok_cases dev blockno s fuel i s₁ h with ⟨_, rfl⟩ | ⟨_, _, rfl⟩
    · exact (hitUpdate_rest s i).2.2.2
    · exact (evictState_rest dev blockno i s).2.2
  · intro hv
    refine ⟨?_, ?_, ?_, ?_⟩
    · simp only [bread, h]
      rw [if_neg (by rw [hv]; simp)]
    · rw [(readFill_rest s₁ i).2.2.2, hdev, hbno]
    · rw [readFill_bufs_self]
    · exact fun j hj => readFill_bufs_other s₁ i j hj
  · intro hv
    simp only [bread, h]
    rw [if_pos hv]
  · intro k hk
    rcases bget_ok_cases dev blockno s fuel i s₁ h with ⟨hf, rfl⟩ | ⟨hm, _, _⟩
    · have hik : some i = some k := hf.symm.trans hk
      obtain rfl := Option.some.inj hik
      refine ⟨rfl, rfl, ?_, ?_, ?_, ?_, ?_, ?_, ?_, (hitUpdate_rest s i).1⟩
      · rw [hitUpdate_bufs_self]
      · rw [hitUpdate_bufs_self]
      · rw [hitUpdate_bufs_self]
      · rw [hitUpdate_bufs_self]
      · rw [hitUpdate_bufs_self]
      · rw [hitUpdate_bufs_self]
      · exact fun j hj => hitUpdate_bufs_other s i j hj
    · rw [hk] at hm
      exact absurd hm (by simp)

/-- C4: after any sequence of completed legal public operations, each
`(dev, blockno)` is held by at most one cached buffer — two cached buffers
with the same identity coincide.  In particular the double-checked lookup of
`bget` never binds a second buffer to a block that is already cached. -/
theorem C4_at_most_one_cached {n : Nat} {disk0 : Nat → Nat → Nat} {s : BCache n}
    (h : LegalReach n disk0 s) :
    ∀ i j : Fin n, Cached (s.bufs i) → Cached (s.bufs j) →
      (s.bufs i).dev = (s.bufs j).dev → (s.bufs i).blockno = (s.bufs j).blockno →
      i = j := by
  intro i j hci hcj hdev hbno
  have inv := legalReach_inv h
  have hi := inv.firstm i hci
  have hj := inv.firstm j hcj
  rw [hdev, hbno] at hi
  rw [hi] at hj
  exact Option.some.inj hj

/-- C5: after any sequence of completed legal public operations, every pool
buffer sits in exactly one bucket list (and at most once in it), and every
buffer with `refcnt > 0` or `valid = 1` sits in bucket
`blockno % NBUCKET`. -/
theorem C5_bucket_partition {n : Nat} {disk0 : Nat → Nat → Nat} {s : BCache n}
    (h : LegalReach n disk0 s) :
    (∀ i : Fin n, ∃! k : Fin 13, i ∈ s.buckets k) ∧
    (∀ k : Fin 13, (s.buckets k).Nodup) ∧
    (∀ i : Fin n, 0 < (s.bufs i).refcnt ∨ (s.bufs i).valid = true →
      i ∈ s.buckets (bhash (s.bufs i).blockno)) := by
  have inv := legalReach_inv h
  refine ⟨?_, inv.nodup, fun i _ => inv.home i⟩
  intro i
  exact ⟨bhash (s.bufs i).blockno, inv.home i, fun k hk => inv.uniq k i hk⟩

/-- C8: on a buffer whose sleep-lock the caller holds, `brelse` releases the
lock, decrements the refcount by one, stamps `lu_time` with the current tick,
and changes nothing else: identity, validity, data, the bucket lists and
every other buffer are untouched. -/
theorem C8_brelse_frame {n : Nat} (s : BCache n) (i : Fin n)
    (h : (s.bufs i).lockHeld = true) :
    ∃ s', brelse i s = some s' ∧
      (s'.bufs i).lockHeld = false ∧
      (s'.bufs i).refcnt = (s.bufs i).refcnt - 1 ∧
      (s'.bufs i).lu_time = (s.ticks : Int) ∧
      (s'.bufs i).dev = (s.bufs i).dev ∧ (s'.bufs i).blockno = (s.bufs i).blockno ∧
      (s'.bufs i).valid = (s.bufs i).valid ∧ (s'.bufs i).data = (s.bufs i).data ∧
      (∀ j, j ≠ i → s'.bufs j = s.bufs j) ∧
      s'.buckets = s.buckets ∧ s'.ticks = s.ticks ∧ s'.disk = s.disk ∧
      s'.iolog = s.iolog := by
  refine ⟨_, brelse_of_held s i h, ?_, ?_, ?_, ?_, ?_, ?_, ?_, ?_, rfl, rfl, rfl, rfl⟩
  · simp only [Function.update_same]
  · simp only [Function.update_same]
  · simp only [Function.update_same]
  · simp only [Function.update_same]
  · simp only [Function.update_same]
  · simp only [Function.update_same]
  · simp only [Function.update_same]
  · intro j hj
    simp only [Function.update_noteq hj]

/-- C9: `binit` sets every buffer's `lu_time` to the sentinel `-1`, and in
every eviction scan on a legally reached state, if some free buffer has never
been released (`lu_time = -1`), the chosen victim is such a buffer — it is
preferred over every free buffer released at a real tick `≥ 0`. -/
theorem C9_sentinel_evicted_first {n : Nat} (disk0 : Nat → Nat → Nat)
    {s : BCache n} (h : LegalReach n disk0 s) :
    (∀ i : Fin n, ((binit n disk0).bufs i).lu_time = -1) ∧
    ((∃ j : Fin n, (s.bufs j).refcnt = 0 ∧ (s.bufs j).lu_time = -1) →
      ∀ v, scanVictim s.bufs = some v →
        (s.bufs v).lu_time = -1 ∧ (s.bufs v).refcnt = 0) := by
  refine ⟨fun i => rfl, ?_⟩
  rintro ⟨j, hj0, hjm⟩ v hv
  have inv := legalReach_inv h
  have h1 := scanVictim_min s.bufs v hv j hj0
  rw [hjm] at h1
  exact ⟨le_antisymm h1 (inv.lub v), scanVictim_refcnt s.bufs v hv⟩

/-- C10: `bunpin` performs no check of any kind and never panics: it always
completes, decrementing the target's refcount by exactly one under the bucket
lock and changing nothing else — from `refcnt = 0` it produces `refcnt = -1`,
and a buffer whose refcount is nonzero is never selected by the eviction
scan. -/
theorem C10_bunpin_no_check {n : Nat} (s : BCache n) (i : Fin n) :
    stepOp (CacheOp.opBunpin i) s = some (bunpin i s) ∧
    ((bunpin i s).bufs i).refcnt = (s.bufs i).refcnt - 1 ∧
    ((bunpin i s).bufs i).dev = (s.bufs i).dev ∧
    ((bunpin i s).bufs i).blockno = (s.bufs i).blockno ∧
    ((bunpin i s).bufs i).valid = (s.bufs i).valid ∧
    ((bunpin i s).bufs i).lu_time = (s.bufs i).lu_time ∧
    ((bunpin i s).bufs i).lockHeld = (s.bufs i).lockHeld ∧
    (∀ j, j ≠ i → (bunpin i s).bufs j = s.bufs j) ∧
    (bunpin i s).buckets = s.buckets ∧
    ((s.bufs i).refcnt = 0 → ((bunpin i s).bufs i).refcnt = -1) ∧
    (∀ (bufs : Fin n → Buf) (v : Fin n), scanVictim bufs = some v →
      (bufs v).refcnt = 0) := by
  have hself : (bunpin i s).bufs i = { s.bufs i with refcnt := (s.bufs i).refcnt - 1 } := by
    rw [bunpin_bufs, Function.update_same]
  refine ⟨rfl, ?_, ?_, ?_, ?_, ?_, ?_, ?_, rfl, ?_, ?_⟩
  · rw [hself]
  · rw [hself]
  · rw [hself]
  · rw [hself]
  · rw [hself]
  · rw [hself]
  · intro j hj
    rw [bunpin_bufs, Function.update_noteq hj]
  · intro h0
    rw [hself]
    show (s.bufs i).refcnt - 1 = -1
    rw [h0]
    rfl
  · exact fun bufs v hv => scanVictim_refcnt bufs v hv

/-! ## Allocator lemmas -/

/-- The steal loop skips a prefix of probes whose shards are all empty. -/
theorem stealLoop_skip {ncpu : Nat} (id : Fin ncpu) (s : KMem ncpu)
    (l1 l2 : List Nat) (h : ∀ x ∈ l1, s.freelist (probe id x) = []) :
    stealLoop id s (l1 ++ l2) = stealLoop id s l2 := by
  induction l1 with
  | nil => rfl
  | cons x t ih =>
    show stealLoop id s (x :: (t ++ l2)) = _
    simp only [stealLoop, h x (List.mem_cons_self x t)]
    exact ih fun y hy => h y (List.mem_cons_of_mem _ hy)

/-- The steal loop pops the head of the first non-empty probed shard. -/
theorem stealLoop_hit {ncpu : Nat} (id : Fin ncpu) (s : KMem ncpu)
    (x : Nat) (l : List Nat) (r : Nat) (tail : List Nat)
    (hx : s.freelist (probe id x) = r :: tail) :
    stealLoop id s (x :: l) =
      (some r, { freelist := Function.update s.freelist (probe id x) tail }) := by
  simp only [stealLoop, hx]

/-- A failed steal loop means every probed shard was empty, and the state is
unchanged. -/
theorem stealLoop_none {ncpu : Nat} (id : Fin ncpu) (s : KMem ncpu) :
    ∀ l : List Nat, (stealLoop id s l).1 = none →
      (stealLoop id s l).2 = s ∧ ∀ x ∈ l, s.freelist (probe id x) = [] := by
  intro l
  induction l with
  | nil => intro _; exact ⟨rfl, by simp⟩
  | cons x t ih =>
    intro h
    cases hx : s.freelist (probe id x) with
    | cons r tail =>
      rw [stealLoop_hit id s x t r tail hx] at h
      exact absurd h (by simp)
    | nil =>
      have hrec : stealLoop id s (x :: t) = stealLoop id s t := by
        simp only [stealLoop, hx]
      rw [hrec] at h ⊢
      obtain ⟨h1, h2⟩ := ih h
      refine ⟨h1, ?_⟩
      intro y hy
      rcases List.mem_cons.mp hy with rfl | hyt
      · exact hx
      · exact h2 y hyt

/-- If every shard is empty the steal loop fails without changing state. -/
theorem stealLoop_all_empty {ncpu : Nat} (id : Fin ncpu) (s : KMem ncpu)
    (h : ∀ j : Fin ncpu, s.freelist j = []) :
    ∀ l : List Nat, stealLoop id s l = (none, s) := by
  intro l
  induction l with
  | nil => rfl
  | cons x t ih =>
    simp only [stealLoop, h (probe id x)]
    exact ih

/-- Every shard other than `id` is hit by some probe offset in
`1 .. NCPU-1`. -/
theorem probe_coverage {ncpu : Nat} (id j : Fin ncpu) (hne : j ≠ id) :
    ∃ i, i ∈ List.range' 1 (ncpu - 1) ∧ probe id i = j := by
  have hpos : 0 < ncpu := id.pos
  have hjlt := j.isLt
  have hilt := id.isLt
  have hvne : j.val ≠ id.val := fun hv => hne (Fin.ext hv)
  refine ⟨(j.val + ncpu - id.val) % ncpu, ?_, ?_⟩
  · rw [List.mem_range'_1]
    have hmod : (j.val + ncpu - id.val) % ncpu =
        if j.val + ncpu - id.val < ncpu then j.val + ncpu - id.val
        else j.val + ncpu - id.val - ncpu := by
      by_cases hlt : j.val + ncpu - id.val < ncpu
      · rw [Nat.mod_eq_of_lt hlt, if_pos hlt]
      · rw [if_neg hlt, Nat.mod_eq_sub_mod (le_of_not_lt hlt),
          Nat.mod_eq_of_lt (by omega)]
    by_cases hlt : j.val + ncpu - id.val < ncpu
    · rw [hmod, if_pos hlt]
      omega
    · rw [hmod, if_neg hlt]
      omega
  · apply Fin.ext
    show (id.val + (j.val + ncpu - id.val) % ncpu) % ncpu = j.val
    rw [Nat.add_mod_mod,
      show id.val + (j.val + ncpu - id.val) = j.val + ncpu from by omega,
      Nat.add_mod_right, Nat.mod_eq_of_lt hjlt]

/-- `kalloc` pops the local shard when it is non-empty. -/
theorem kalloc_pop {ncpu : Nat} (id : Fin ncpu) (s : KMem ncpu)
    (r : Nat) (tail : List Nat) (h : s.freelist id = r :: tail) :
    kalloc id s = (some r, { freelist := Function.update s.freelist id tail }) := by
  simp only [kalloc, h]

/-- `kalloc` falls back to the steal loop when the local shard is empty. -/
theorem kalloc_steal {ncpu : Nat} (id : Fin ncpu) (s : KMem ncpu)
    (h : s.freelist id = []) :
    kalloc id s = stealLoop id s (List.range' 1 (ncpu - 1)) := by
  simp only [kalloc, h]

/-! ## Claim theorems: the allocator -/

/-- C6: `kalloc` pops the head of the calling CPU's shard when non-empty;
otherwise it probes `(id+1) % NCPU, (id+2) % NCPU, ...` in order and pops the
head of the first non-empty shard, leaving the rest untouched; it returns
null exactly when every shard is empty.  In particular, with the local shard
empty and another non-empty, it succeeds by stealing. -/
theorem C6_kalloc_steal_order {ncpu : Nat} (id : Fin ncpu) (s : KMem ncpu) :
    (∀ r tail, s.freelist id = r :: tail →
      kalloc id s = (some r, { freelist := Function.update s.freelist id tail })) ∧
    ((kalloc id s).1 = none ↔ ∀ j : Fin ncpu, s.freelist j = []) ∧
    ((kalloc id s).1 = none → (kalloc id s).2 = s) ∧
    (∀ i r tail, s.freelist id = [] → 1 ≤ i → i < ncpu →
      (∀ i', 1 ≤ i' → i' < i → s.freelist (probe id i') = []) →
      s.freelist (probe id i) = r :: tail →
      kalloc id s = (some r, { freelist := Function.update s.freelist (probe id i) tail })) := by
  refine ⟨fun r tail h => kalloc_pop id s r tail h, ?_, ?_, ?_⟩
  · constructor
    · intro hnone
      cases hid : s.freelist id with
      | cons r tail =>
        rw [kalloc_pop id s r tail hid] at hnone
        exact absurd hnone (by simp)
      | nil =>
        rw [kalloc_steal id s hid] at hnone
        obtain ⟨_, hall⟩ := stealLoop_none id s _ hnone
        intro j
        by_cases hj : j = id
        · rw [hj]; exact hid
        · obtain ⟨i, hmem, hpj⟩ := probe_coverage id j hj
          rw [← hpj]
          exact hall i hmem
    · intro hall
      rw [kalloc_steal id s (hall id), stealLoop_all_empty id s hall]
  · intro hnone
    cases hid : s.freelist id with
    | cons r tail =>
      rw [kalloc_pop id s r tail hid] at hnone
      exact absurd hnone (by simp)
    | nil =>
      rw [kalloc_steal id s hid] at hnone ⊢
      exact (stealLoop_none id s _ hnone).1
  · intro i r tail hid h1 h2 hearlier hit
    rw [kalloc_steal id s hid]
    have hsplit : List.range' 1 (i - 1) ++ List.range' i (ncpu - i) =
        List.range' 1 (ncpu - 1) := by
      have h := List.range'_append 1 (i - 1) (ncpu - i) 1
      rw [show 1 + 1 * (i - 1) = i from by omega,
        show ncpu - i + (i - 1) = ncpu - 1 from by omega] at h
      exact h
    rw [← hsplit,
      stealLoop_skip id s _ _ (fun x hx => by
        rw [List.mem_range'_1] at hx
        exact hearlier x hx.1 (by omega)),
      show List.range' i (ncpu - i) = i :: List.range' (i + 1) (ncpu - i - 1) from by
        obtain ⟨m, hm⟩ : ∃ m, ncpu - i = m + 1 := ⟨ncpu - i - 1, by omega⟩
        rw [hm, List.range'_succ]
        rfl]
    exact stealLoop_hit id s i _ r tail hit

/-- C7: `kfree(pa)` panics exactly when `pa` is unaligned, below the kernel
end, or at/above `PHYSTOP`; on a well-formed `pa` it completes, pushing the
frame at the head of the calling CPU's shard and leaving all other shards
unchanged. -/
theorem C7_kfree_guard {ncpu : Nat} (kend PHYSTOP pa : Nat) (id : Fin ncpu)
    (s : KMem ncpu) :
    (kfree kend PHYSTOP pa id s = none ↔
      (pa % PGSIZE ≠ 0 ∨ pa < kend ∨ PHYSTOP ≤ pa)) ∧
    (pa % PGSIZE = 0 → kend ≤ pa → pa < PHYSTOP →
      ∃ s', kfree kend PHYSTOP pa id s = some s' ∧
        s'.freelist id = pa :: s.freelist id ∧
        ∀ j, j ≠ id → s'.freelist j = s.freelist j) := by
  constructor
  · unfold kfree
    by_cases hc : pa % PGSIZE ≠ 0 ∨ pa < kend ∨ PHYSTOP ≤ pa
    · rw [if_pos hc]
      exact ⟨fun _ => hc, fun _ => rfl⟩
    · rw [if_neg hc]
      exact ⟨fun hn => absurd hn (by simp), fun h => absurd h hc⟩
  · intro h1 h2 h3
    have hc : ¬(pa % PGSIZE ≠ 0 ∨ pa < kend ∨ PHYSTOP ≤ pa) := by
      intro hor
      rcases hor with hx | hx | hx
      · exact hx h1
      · omega
      · omega
    unfold kfree
    rw [if_neg hc]
    refine ⟨_, rfl, ?_, ?_⟩
    · simp only [Function.update_same]
    · intro j hj
      simp only [Function.update_noteq hj]

/-! ## Concrete witness states -/

/-- An all-zero disk image. -/
def dzero : Nat → Nat → Nat := fun _ _ => 0

/-- A one-buffer cache holding a free buffer for block `(0,0)` in bucket 0. -/
def cs1 : BCache 1 :=
  { bufs := fun _ =>
      { dev := 0, blockno := 0, valid := false, refcnt := 0,
        lu_time := -1, data := 0, lockHeld := false }
    buckets := fun k => if k = (0 : Fin 13) then [(0 : Fin 1)] else []
    ticks := 0
    disk := dzero
    iolog := [] }

/-- A one-buffer cache whose only buffer is referenced (saturated pool). -/
def cs2 : BCache 1 :=
  { bufs := fun _ =>
      { dev := 0, blockno := 0, valid := true, refcnt := 1,
        lu_time := -1, data := 0, lockHeld := false }
    buckets := fun k => if k = (0 : Fin 13) then [(0 : Fin 1)] else []
    ticks := 0
    disk := dzero
    iolog := [] }

/-- A one-buffer cache caching block `(1, 7)` with valid data. -/
def cs3 : BCache 1 :=
  { bufs := fun _ =>
      { dev := 1, blockno := 7, valid := true, refcnt := 0,
        lu_time := 5, data := 42, lockHeld := false }
    buckets := fun k => if k = bhash 7 then [(0 : Fin 1)] else []
    ticks := 0
    disk := dzero
    iolog := [] }

/-- A one-buffer cache whose buffer is sleep-locked by the caller. -/
def cs8 : BCache 1 :=
  { bufs := fun _ =>
      { dev := 1, blockno := 7, valid := true, refcnt := 1,
        lu_time := -1, data := 42, lockHeld := true }
    buckets := fun k => if k = bhash 7 then [(0 : Fin 1)] else []
    ticks := 3
    disk := dzero
    iolog := [] }

/-- The state after one completed `bread(0,0)` on a fresh two-buffer cache. -/
def c4s : BCache 2 :=
  (stepOp (CacheOp.opBread 0 0 1) (binit 2 dzero)).getD (binit 2 dzero)

/-- A two-CPU allocator state: shard 0 empty, shard 1 holding one frame. -/
def ks6 : KMem 2 :=
  { freelist := fun j => if j = (0 : Fin 2) then [] else [4096] }

/-- A one-CPU allocator state with an empty shard. -/
def ks7 : KMem 1 :=
  { freelist := fun _ => [] }

/-! ## Witnesses -/

/-- Witness for C1: `bget(0,1)` on `cs1` misses (bucket 1 is empty) and
evicts the free buffer 0, relinking it at the head of bucket 1. -/
theorem C1_witness :
    ((cs1.buckets (bhash 1)).find? (fun j => bmatch 0 1 (cs1.bufs j)) = none) ∧
    bget 0 1 cs1 1 = BRes.ok 0 (evictState 0 1 0 cs1) ∧
    (cs1.bufs 0).refcnt = 0 ∧
    ((evictState 0 1 0 cs1).buckets (bhash 1)).head? = some 0 := by
  have h := C1_bget_miss_evicts_lru 0 1 1 cs1 0 (evictState 0 1 0 cs1) rfl rfl
  exact ⟨rfl, rfl, h.1, h.2.2.2.2.2.2⟩

/-- Witness for C2: on the saturated `cs2`, a missing `bget(0,1)` diverges
instead of panicking. -/
theorem C2_witness :
    (∀ j : Fin 1, 0 < (cs2.bufs j).refcnt) ∧
    ((cs2.buckets (bhash 1)).find? (fun j => bmatch 0 1 (cs2.bufs j)) = none) ∧
    bget 0 1 cs2 2 = BRes.diverge := by
  refine ⟨by decide, rfl, ?_⟩
  exact (C2_bget_saturated_loops_forever 0 1 2 cs2 (by decide) rfl).1

/-- Witness for C3: re-reading the already-valid block `(1,7)` performs no
disk I/O — `bread` returns exactly the `bget` hit state. -/
theorem C3_witness :
    bget 1 7 cs3 1 = BRes.ok 0 (hitUpdate cs3 0) ∧
    ((hitUpdate cs3 0).bufs 0).valid = true ∧
    bread 1 7 cs3 1 = BRes.ok 0 (hitUpdate cs3 0) := by
  have h := C3_bread_reads_once 1 7 1 cs3 0 (hitUpdate cs3 0) rfl
  exact ⟨rfl, rfl, h.2.2.1 rfl⟩

/-- Witness for C4 at the reachable state `c4s`. -/
theorem C4_witness : Cached (c4s.bufs 1) ∧ (1 : Fin 2) = 1 := by
  have hr : LegalReach 2 dzero c4s :=
    LegalReach.step (CacheOp.opBread 0 0 1) LegalReach.init True.intro
      (rfl : stepOp (CacheOp.opBread 0 0 1) (binit 2 dzero) = some c4s)
  have hcached : Cached (c4s.bufs 1) := by decide
  exact ⟨hcached, C4_at_most_one_cached hr 1 1 hcached hcached rfl rfl⟩

/-- Witness for C5 at the initial state. -/
theorem C5_witness : ∃! k : Fin 13, (0 : Fin 1) ∈ (binit 1 dzero).buckets k :=
  (C5_bucket_partition (LegalReach.init : LegalReach 1 dzero (binit 1 dzero))).1 0

/-- Witness for C6: on `ks6`, CPU 0 steals the only frame from shard 1. -/
theorem C6_witness :
    ks6.freelist 0 = [] ∧ ks6.freelist (probe 0 1) = [4096] ∧
    kalloc 0 ks6 = (some 4096, { freelist := Function.update ks6.freelist (probe 0 1) [] }) := by
  have h := (C6_kalloc_steal_order (0 : Fin 2) ks6).2.2.2 1 4096 [] rfl (by omega) (by omega)
    (fun i' hi1 hi2 => absurd (lt_of_le_of_lt hi1 hi2) (lt_irrefl 1)) rfl
  exact ⟨rfl, rfl, h⟩

/-- Witness for C7: freeing the aligned in-range page 8192 pushes it onto the
local shard. -/
theorem C7_witness :
    8192 % PGSIZE = 0 ∧
    ∃ s', kfree 4096 40960 8192 0 ks7 = some s' ∧ s'.freelist 0 = [8192] := by
  have h := (C7_kfree_guard 4096 40960 8192 (0 : Fin 1) ks7).2 (by decide) (by omega) (by omega)
  obtain ⟨s', hs, hpush, _⟩ := h
  refine ⟨by decide, s', hs, ?_⟩
  rw [hpush]
  rfl

/-- Witness for C8: releasing the held buffer of `cs8` drops its refcount to
0 and stamps `lu_time` with the current tick 3. -/
theorem C8_witness :
    (cs8.bufs 0).lockHeld = true ∧
    ∃ s', brelse 0 cs8 = some s' ∧ (s'.bufs 0).refcnt = 0 ∧ (s'.bufs 0).lu_time = 3 := by
  obtain ⟨s', hs, _, href, hlu, _⟩ := C8_brelse_frame cs8 0 rfl
  refine ⟨rfl, s', hs, ?_, ?_⟩
  · rw [href]; rfl
  · rw [hlu]; rfl

/-- Witness for C9 at the initial one-buffer state. -/
theorem C9_witness :
    ((binit 1 dzero).bufs 0).lu_time = -1 ∧
    ((binit 1 dzero).bufs 0).lu_time = -1 ∧ ((binit 1 dzero).bufs 0).refcnt = 0 := by
  have h := C9_sentinel_evicted_first dzero (LegalReach.init : LegalReach 1 dzero (binit 1 dzero))
  exact ⟨h.1 0, h.2 ⟨0, by decide, by decide⟩ 0 rfl⟩

/-- Witness for C10: `bunpin` on the already-free buffer of `cs1` drives its
refcount to `-1`. -/
theorem C10_witness : ((bunpin 0 cs1).bufs 0).refcnt = -1 :=
  (C10_bunpin_no_check cs1 0).2.2.2.2.2.2.2.2.2.1 rfl
